import Mathlib

/-!
# Verification of `eensy.py` (tinysearch / eensy-index)

Shallow embedding of the single source file `src/eensy-index/eensy.py`:
a tiny in-memory inverted index with TF-IDF ranked search and a
directory-indexed on-disk persistence format.

Modelling conventions:
* Text is `List Char`; Python's `str.lower`, `str.split()`,
  `str.isalpha`/`str.isdigit` are modelled at the ASCII level (the corpus
  and the spec's examples are ASCII).
* Python floats (`math.log`, `tf` division) are modelled over `ℚ`,
  parametric in an abstract logarithm `log : ℚ → ℚ`; every claim that
  depends on the logarithm is stated for all `log`, or instantiated at a
  function that agrees with `ln` on the finitely many points used
  (`log 1 = 0`, `log 2 > 0`).
* Python dicts (`collections.defaultdict`) are insertion-ordered
  association lists, exactly mirroring dict iteration-order semantics.
* `Index.add_doc` returns the post-call state *and* an error flag: the
  Python method mutates `self.documents` before `max(...)` can raise, and
  the embedding keeps that partially-mutated state visible.
-/

namespace Eensy

/-- ASCII model of Python's `str.lower` applied to one character
(`eensy.py` line 25 `text.lower()`): maps `A`–`Z` to `a`–`z`. -/
def lowerChar (c : Char) : Char :=
  if 65 ≤ c.toNat ∧ c.toNat ≤ 90 then Char.ofNat (c.toNat + 32) else c

/-- ASCII model of Python's `c.isalpha() or c.isdigit()` (line 27). -/
def isAlnum (c : Char) : Bool :=
  c.isAlpha || c.isDigit

/-- The stop-word set of `eensy.py` lines 20–21 (`STOP_WORDS`). -/
def STOP_WORDS : List (List Char) :=
  ["the", "of", "in", "and", "to", "a", "an", "was", "for", "on", "with",
   "is", "by", "as", "at", "from", "that", "it", "were", "are", "has",
   "had", "also", "its", "this", "may", "be", "or"].map String.toList

/-- Whitespace splitter worker: `cur` is the (reversed) word being read.
Models Python's `str.split()` (line 25): split on whitespace runs,
yielding no empty words. -/
def splitWsAux : List Char → List Char → List (List Char)
  | [], cur => if cur = [] then [] else [cur.reverse]
  | c :: rest, cur =>
    if c.isWhitespace then
      if cur = [] then splitWsAux rest []
      else cur.reverse :: splitWsAux rest []
    else splitWsAux rest (c :: cur)

/-- Python `text.split()`. -/
def splitWs (s : List Char) : List (List Char) :=
  splitWsAux s []

/-- `eensy.py` lines 24–29, `tokens(text)`: lower-case, split on
whitespace, keep words with at least one alphanumeric character that are
not stop words.  The generator is modelled as the list of yielded words. -/
def tokens (text : List Char) : List (List Char) :=
  (splitWs (text.map lowerChar)).filter
    (fun w => w.any isAlnum && !(decide (w ∈ STOP_WORDS)))

/-- `Loc = namedtuple("Loc", "document offsets")` (line 7).  The Python
value holds a reference to the (mutable) `Document` object; the
embedding stores the document id and reads document fields through the
index's document table (cf. spec §9: "explicit document id plus an
id→Document lookup table"). -/
structure Loc where
  document : Nat
  offsets : List Nat
deriving DecidableEq, Repr

/-- `class Document` (lines 11–17). -/
structure Document where
  id : Nat
  name : List Char
  filename : List Char
  max_tf : Nat
deriving DecidableEq, Repr

/-- The mutable state of `class Index` (lines 34–35): the document list
and the insertion-ordered `defaultdict(list)` of term → postings. -/
structure Index where
  documents : List Document
  terms : List (List Char × List Loc)
deriving DecidableEq, Repr

/-- `filename.replace(".txt", "")` (line 15): remove every left-to-right
non-overlapping occurrence of `.txt`. -/
def removeTxt : List Char → List Char
  | '.' :: 't' :: 'x' :: 't' :: rest => removeTxt rest
  | c :: rest => c :: removeTxt rest
  | [] => []

/-- `Document.__init__` (lines 13–17). -/
def mkDocument (id : Nat) (filename : List Char) : Document :=
  { id := id, name := removeTxt filename, filename := filename, max_tf := 0 }

/-- Ordered-dict lookup. -/
def assocFind {α β : Type} [DecidableEq α] : List (α × β) → α → Option β
  | [], _ => none
  | (k, v) :: rest, a => if k = a then some v else assocFind rest a

/-- One step of `locs_in_file[word].offsets.append(i)` (line 51) on the
insertion-ordered `defaultdict(lambda: Loc(doc, []))`: append offset `i`
to `w`'s list, creating the entry at the end on first access. -/
def addOffset : List (List Char × List Nat) → List Char → Nat → List (List Char × List Nat)
  | [], w, i => [(w, [i])]
  | (w', offs) :: rest, w, i =>
    if w' = w then (w', offs ++ [i]) :: rest else (w', offs) :: addOffset rest w i

/-- The `locs_in_file` accumulation loop of lines 49–51, over the
enumerated token list. -/
def buildLocs (toks : List (List Char)) : List (List Char × List Nat) :=
  (toks.enum).foldl (fun m p => addOffset m p.2 p.1) []

/-- Python's `max(...)` over a sequence of naturals: `none` models the
`ValueError` raised on an empty sequence (line 52). -/
def pyMax : List Nat → Option Nat
  | [] => none
  | x :: rest => some (rest.foldl max x)

/-- Append a `Loc` to a term's postings list in `self.terms`
(`defaultdict(list)`, lines 55–56): create the entry at the end on first
access. -/
def appendPosting : List (List Char × List Loc) → List Char → Loc → List (List Char × List Loc)
  | [], w, l => [(w, [l])]
  | (w', ls) :: rest, w, l =>
    if w' = w then (w', ls ++ [l]) :: rest else (w', ls) :: appendPosting rest w l

/-- `Index.add_doc` (lines 44–56).  Returns the post-call state and an
error flag: `true` models the uncaught `ValueError` from
`max(... for ... in locs_in_file.values())` on a zero-token document.
Crucially, `self.documents.append(doc)` (line 47) happens *before* that
`max(...)`, so on the error path the returned state already contains the
new document (with its `__init__` value `max_tf = 0`) while `self.terms`
is untouched. -/
def add_doc (idx : Index) (filename text : List Char) : Index × Bool :=
  let id := idx.documents.length
  let doc0 := mkDocument id filename
  let locs := buildLocs (tokens text)
  match pyMax (locs.map (fun p => p.2.length)) with
  | none => ({ documents := idx.documents ++ [doc0], terms := idx.terms }, true)
  | some m =>
    let doc := { doc0 with max_tf := m }
    ({ documents := idx.documents ++ [doc],
       terms := locs.foldl
         (fun ts p => appendPosting ts p.1 { document := id, offsets := p.2 }) idx.terms },
     false)

/-- The empty index (`Index.__init__` before any file is read). -/
def emptyIndex : Index := { documents := [], terms := [] }

/-- `Index.lookup` (lines 65–67): `self.terms.get(term, [])`.  Note the
code uses `dict.get`, which never inserts a key (unlike `self.terms[term]`
on the `defaultdict`). -/
def lookupP (idx : Index) (term : List Char) : List Loc :=
  match assocFind idx.terms term with
  | some v => v
  | none => []

/-- `Index.idf` (lines 58–63) for a term with a non-empty postings list:
`df = len(locs) / len(self.documents); return log(1/df)`, with
`math.log` abstracted as `log : ℚ → ℚ`. -/
def idfVal (log : ℚ → ℚ) (idx : Index) (term : List Char) : ℚ :=
  log (1 / (((lookupP idx term).length : ℚ) / (idx.documents.length : ℚ)))

/-- The tf expression of line 77: `100 * len(loc.offsets) / loc.document.max_tf`. -/
def tfOf (occ max_tf : Nat) : ℚ :=
  100 * (occ : ℚ) / (max_tf : ℚ)

/-- Reading `loc.document.max_tf` through the document table. -/
def maxTfOf (idx : Index) (d : Nat) : Nat :=
  match idx.documents.get? d with
  | some doc => doc.max_tf
  | none => 0

/-- `file_scores[loc.document] += v` on the insertion-ordered
`defaultdict(float)` (line 78): add `v` to `d`'s score, creating the
entry (from `0.0`) at the end on first access. -/
def bump : List (Nat × ℚ) → Nat → ℚ → List (Nat × ℚ)
  | [], d, v => [(d, 0 + v)]
  | (d', s) :: rest, d, v =>
    if d' = d then (d', s + v) :: rest else (d', s) :: bump rest d v

/-- The body of the `for word in tokens(query)` loop of lines 72–78, for
one query token. -/
def scoreStep (log : ℚ → ℚ) (idx : Index) (fs : List (Nat × ℚ)) (w : List Char) :
    List (Nat × ℚ) :=
  let locs := lookupP idx w
  if locs = [] then fs
  else
    let idfv := idfVal log idx w
    locs.foldl
      (fun fs' loc => bump fs' loc.document (tfOf loc.offsets.length (maxTfOf idx loc.document) * idfv))
      fs

/-- The fully accumulated `file_scores` dict after the loop of lines 71–78. -/
def fileScores (log : ℚ → ℚ) (idx : Index) (toks : List (List Char)) : List (Nat × ℚ) :=
  toks.foldl (scoreStep log idx) []

/-- Stable descending insertion: `x` passes every strictly larger score
and stops at the first score `≤ x.2`, so elements with equal scores keep
their original relative order — the behaviour of CPython's stable
`list.sort(key=..., reverse=True)` (line 81). -/
def insertDesc (x : Nat × ℚ) : List (Nat × ℚ) → List (Nat × ℚ)
  | [] => [x]
  | y :: rest => if y.2 ≤ x.2 then x :: y :: rest else y :: insertDesc x rest

/-- Stable descending sort by score (line 81,
`results.sort(key=lambda pair: pair.score, reverse=True)`). -/
def sortDesc : List (Nat × ℚ) → List (Nat × ℚ)
  | [] => []
  | x :: rest => insertDesc x (sortDesc rest)

/-- Python list slicing `l[:k]` for an `int` `k` (line 82
`results[:limit]`): non-negative `k` takes the first `k` elements; a
negative `k` drops the last `|k|` elements.  No value of `k` is an
error. -/
def pySlice {α : Type} (l : List α) (k : Int) : List α :=
  if 0 ≤ k then l.take k.toNat else l.take (l.length - k.natAbs)

/-- The sorted, untruncated `results` list of lines 80–81, as
`(document id, score)` pairs in ranked order. -/
def rankedResults (log : ℚ → ℚ) (idx : Index) (query : List Char) : List (Nat × ℚ) :=
  sortDesc (fileScores log idx (tokens query))

/-- `Index.search` (lines 69–82): ranked results truncated by
`results[:limit]`. -/
def search (log : ℚ → ℚ) (idx : Index) (query : List Char) (limit : Int) :
    List (Nat × ℚ) :=
  pySlice (rankedResults log idx query) limit

/-- `Index.lookup` as a state transformer: `dict.get` reads the term map
and returns it unchanged (it never inserts, in contrast with
`self.terms[term]` on the `defaultdict`). -/
def lookupS (idx : Index) (term : List Char) : List Loc × Index :=
  (lookupP idx term, idx)

/-- `Index.idf` as a state transformer (lines 58–63): performs its own
`self.lookup(term)` and returns `None` on an empty postings list. -/
def idfS (log : ℚ → ℚ) (idx : Index) (term : List Char) : Option ℚ × Index :=
  let p := lookupS idx term
  if p.1 = [] then (none, p.2) else (some (idfVal log p.2 term), p.2)

/-- `Index.search` as a state transformer, threading the index through
every `self` access (`self.lookup` in the loop, `self.idf`, the score
accumulation, sort and slice), returning the result list together with
the post-call index state. -/
def searchS (log : ℚ → ℚ) (idx : Index) (query : List Char) (limit : Int) :
    List (Nat × ℚ) × Index :=
  let r := (tokens query).foldl
    (fun (p : List (Nat × ℚ) × Index) w =>
      let l := lookupS p.2 w
      if l.1 = [] then (p.1, l.2)
      else
        let i := idfS log l.2 w
        (l.1.foldl
          (fun fs loc =>
            bump fs loc.document (tfOf loc.offsets.length (maxTfOf i.2 loc.document) * (i.1.getD 0)))
          p.1,
         i.2))
    ([], idx)
  (pySlice (sortDesc r.1) limit, r.2)

/-- ASCII-uppercase predicate (`A`
through `Z`), used to state the lower-case guarantee. -/
def isUpperA (c : Char) : Prop :=
  65 ≤ c.toNat ∧ c.toNat ≤ 90

/-! ## Tokenizer lemmas (claim C5) -/

theorem lowerChar_not_upper (c : Char) : ¬ isUpperA (lowerChar c) := by
  unfold lowerChar isUpperA
  by_cases h : 65 ≤ c.toNat ∧ c.toNat ≤ 90
  · rw [if_pos h]
    obtain ⟨h1, h2⟩ := h
    set m := c.toNat + 32 with hm
    have hm1 : 97 ≤ m := by omega
    have hm2 : m ≤ 122 := by omega
    clear_value m
    interval_cases m <;> decide
  · rw [if_neg h]
    exact h

theorem splitWsAux_chars (s : List Char) :
    ∀ (cur w : List Char), w ∈ splitWsAux s cur → ∀ c ∈ w, c ∈ s ∨ c ∈ cur := by
  induction s with
  | nil =>
    intro cur w hw c hc
    unfold splitWsAux at hw
    by_cases h : cur = []
    · simp [h] at hw
    · simp only [h, if_false, List.mem_singleton] at hw
      subst hw
      exact Or.inr (List.mem_reverse.mp hc)
  | cons a rest ih =>
    intro cur w hw c hc
    unfold splitWsAux at hw
    by_cases hws : a.isWhitespace
    · simp only [hws, if_true] at hw
      by_cases h : cur = []
      · simp only [h, if_true] at hw
        rcases ih [] w hw c hc with h1 | h1
        · exact Or.inl (List.mem_cons_of_mem a h1)
        · simp at h1
      · simp only [h, if_false, List.mem_cons] at hw
        rcases hw with hw | hw
        · subst hw
          exact Or.inr (List.mem_reverse.mp hc)
        · rcases ih [] w hw c hc with h1 | h1
          · exact Or.inl (List.mem_cons_of_mem a h1)
          · simp at h1
    · simp only [hws, if_false] at hw
      rcases ih (a :: cur) w hw c hc with h1 | h1
      · exact Or.inl (List.mem_cons_of_mem a h1)
      · rcases List.mem_cons.mp h1 with h2 | h2
        · exact Or.inl (h2 ▸ List.mem_cons_self a rest)
        · exact Or.inr h2

/-- Claim C5: every term yielded by the tokenizer is non-empty,
lower-case (contains no ASCII uppercase letter), contains at least one
alphanumeric character, and is not a stop word. -/
theorem tokens_wellformed (text w : List Char) (hw : w ∈ tokens text) :
    w ≠ [] ∧ (∀ c ∈ w, ¬ isUpperA c) ∧ (∃ c ∈ w, isAlnum c = true) ∧ w ∉ STOP_WORDS := by
  unfold tokens at hw
  obtain ⟨hmem, hpred⟩ := List.mem_filter.mp hw
  simp only [Bool.and_eq_true, Bool.not_eq_true', decide_eq_false_iff_not] at hpred
  obtain ⟨hany, hstop⟩ := hpred
  have hex : ∃ c ∈ w, isAlnum c = true := List.any_eq_true.mp hany
  refine ⟨?_, ?_, hex, ?_⟩
  · rintro rfl
    simp at hex
  · intro c hc
    rcases splitWsAux_chars (text.map lowerChar) [] w hmem c hc with h1 | h1
    · obtain ⟨c₀, _, rfl⟩ := List.mem_map.mp h1
      exact lowerChar_not_upper c₀
    · simp at h1
  · intro hin
    simp [hin] at hstop

/-! ## Display-name lemmas (claim C8) -/

/-- The pattern removed by `filename.replace(".txt", "")`. -/
def txtPat : List Char := ['.', 't', 'x', 't']

/-- The display name as the spec words it ("filename with trailing
`.txt` stripped"): strip one trailing `.txt`, touching nothing else. -/
def specDisplayName (fn : List Char) : List Char :=
  if txtPat <:+ fn then fn.take (fn.length - 4) else fn

theorem removeTxt_append_pat (b a : List Char) :
    removeTxt (a ++ txtPat ++ b) = removeTxt a ++ removeTxt b := by
  induction a using removeTxt.induct with
  | case1 rest ih =>
    simp only [txtPat, List.cons_append] at *
    rw [removeTxt.eq_1, removeTxt.eq_1, ih]
  | case2 c rest h ih =>
    have hex : ∀ r1 : List Char, c = '.' → rest ++ txtPat ++ b = 't' :: 'x' :: 't' :: r1 → False := by
      intro r1 hc heq
      rcases rest with _ | ⟨c1, _ | ⟨c2, _ | ⟨c3, rest'⟩⟩⟩
      · simp +decide [txtPat] at heq
      · simp +decide [txtPat] at heq
      · simp +decide [txtPat] at heq
      · have hcomp : c1 = 't' ∧ c2 = 'x' ∧ c3 = 't' ∧ rest' ++ txtPat ++ b = r1 := by
          simpa [txtPat] using heq
        obtain ⟨h1, h2, h3, -⟩ := hcomp
        exact h rest' hc (by rw [h1, h2, h3])
    calc removeTxt ((c :: rest) ++ txtPat ++ b)
        = removeTxt (c :: (rest ++ txtPat ++ b)) := by simp [List.cons_append]
      _ = c :: removeTxt (rest ++ txtPat ++ b) := removeTxt.eq_2 _ _ hex
      _ = c :: (removeTxt rest ++ removeTxt b) := by rw [ih]
      _ = removeTxt (c :: rest) ++ removeTxt b := by
            rw [removeTxt.eq_2 c rest h, List.cons_append]
  | case3 =>
    simp only [txtPat, List.nil_append, List.cons_append]
    rw [removeTxt.eq_1, removeTxt.eq_3, List.nil_append]

theorem removeTxt_of_not_infix (fn : List Char) (h : ¬ txtPat <:+: fn) :
    removeTxt fn = fn := by
  induction fn using removeTxt.induct with
  | case1 rest ih =>
    exact absurd ((List.prefix_append txtPat rest).isInfix) h
  | case2 c rest hne ih =>
    rw [removeTxt.eq_2 c rest hne, ih (fun hi => h (List.infix_cons hi))]
  | case3 => rfl

/-- Claim C8 (amended): the display name is the filename with *every*
left-to-right occurrence of `.txt` removed — a trailing `.txt` is
stripped, but so is any non-trailing occurrence.  Filenames containing
no `.txt` at all are unchanged. -/
theorem display_name_removes_all_txt (id : Nat) (fn a b : List Char) :
    (¬ txtPat <:+: fn → (mkDocument id fn).name = fn) ∧
    (mkDocument id (a ++ txtPat ++ b)).name =
      (mkDocument id a).name ++ (mkDocument id b).name ∧
    (¬ txtPat <:+: a → (mkDocument id (a ++ txtPat)).name = a) := by
  refine ⟨fun h => removeTxt_of_not_infix fn h, removeTxt_append_pat b a, fun h => ?_⟩
  have h2 := removeTxt_append_pat [] a
  rw [List.append_nil, removeTxt.eq_3, List.append_nil] at h2
  show removeTxt (a ++ txtPat) = a
  rw [h2, removeTxt_of_not_infix a h]

/-- Counterexample to claim C8 as stated: for `a.txtb.txt` the code's
`replace(".txt", "")` also removes the non-trailing occurrence, giving
`ab`, while stripping only the trailing `.txt` would give `a.txtb`. -/
theorem display_name_counterexample :
    (mkDocument 0 "a.txtb.txt".toList).name = "ab".toList ∧
    specDisplayName "a.txtb.txt".toList = "a.txtb".toList ∧
    (mkDocument 0 "a.txtb.txt".toList).name ≠ specDisplayName "a.txtb.txt".toList := by
  decide

/-- Witness for C8's amended theorem at a concrete filename. -/
theorem display_name_removes_all_txt_witness :
    (mkDocument 0 ("doc".toList ++ txtPat)).name = "doc".toList :=
  (display_name_removes_all_txt 0 [] "doc".toList []).2.2 (by decide)

/-! ## Concrete fixtures for counterexamples and witnesses -/

/-- A computable stand-in for `math.log`, used only to *instantiate*
counterexamples and witnesses.  On the only points where those
evaluations consult the logarithm it agrees qualitatively with `ln`:
`demoLog 1 = 0` (`ln 1 = 0`) and `demoLog 2 = 1 > 0` (`ln 2 > 0`); like
`ln` it is strictly monotone. -/
def demoLog (x : ℚ) : ℚ := x - 1

/-- Two-document corpus: `a.txt` ↦ `"bb"`, `b.txt` ↦ `"aa"`.  Each term
is exclusive to one document, and the two documents end up with equal
scores for the query `"aa bb"`. -/
def idxAB : Index :=
  (add_doc (add_doc emptyIndex "a.txt".toList "bb".toList).1
    "b.txt".toList "aa".toList).1

/-- Two-document corpus: `c.txt` ↦ `"cat"`, `d.txt` ↦ `"cat dog"`.
`cat` occurs in every document, so its idf is `log 1 = 0` and it
contributes score `0`. -/
def idxCD : Index :=
  (add_doc (add_doc emptyIndex "c.txt".toList "cat".toList).1
    "d.txt".toList "cat dog".toList).1

/-! ## Empty-document ingestion (claim C3) -/

/-- Claim C3 is a code bug: ingesting a zero-token document into the
empty index raises (`add_doc` returns the error flag, modelling the
uncaught `ValueError` of `max()` on the empty `locs_in_file`), yet the
post-call state is *not* the pre-call state — the document has already
been appended (with its `__init__` value `max_tf = 0`), so the call is
not all-or-nothing, and the error is not an explicit `EmptyDocument`
condition. -/
theorem add_doc_empty_document_bug :
    (add_doc emptyIndex "e.txt".toList "".toList).2 = true ∧
    (add_doc emptyIndex "e.txt".toList "".toList).1 ≠ emptyIndex ∧
    (add_doc emptyIndex "e.txt".toList "".toList).1.documents =
      [{ id := 0, name := "e".toList, filename := "e.txt".toList, max_tf := 0 }] ∧
    (add_doc emptyIndex "e.txt".toList "".toList).1.terms = [] := by
  decide

/-! ## Limit semantics (claim C4) -/

/-- Claim C4 (amended): `limit = k ≥ 0` truncates to at most `k`
results, `limit = 0` gives the empty list, a `limit` at least the match
count returns all matches unpadded, and a *negative* `limit = -m` is not
an `InvalidArgument` error: Python slicing silently drops the last `m`
ranked results. -/
theorem search_limit_truncation (log : ℚ → ℚ) (idx : Index) (q : List Char) (k : Int) :
    (0 ≤ k → (search log idx q k).length ≤ k.toNat) ∧
    search log idx q 0 = [] ∧
    ((rankedResults log idx q).length ≤ k → search log idx q k = rankedResults log idx q) ∧
    (k < 0 → search log idx q k =
      (rankedResults log idx q).take ((rankedResults log idx q).length - k.natAbs)) := by
  refine ⟨fun hk => ?_, ?_, fun hk => ?_, fun hk => ?_⟩
  · rw [search, pySlice, if_pos hk]
    simp only [List.length_take]
    exact Nat.min_le_left k.toNat (rankedResults log idx q).length
  · rw [search, pySlice, if_pos le_rfl]
    simp
  · have h0 : (0 : Int) ≤ k := le_trans (by positivity) hk
    rw [search, pySlice, if_pos h0]
    refine List.take_of_length_le ?_
    have := Int.toNat_le_toNat hk
    simpa using this
  · rw [search, pySlice, if_neg (by omega)]

/-- Witness for C4's amended theorem at concrete inputs. -/
theorem search_limit_truncation_witness :
    (search demoLog idxAB "aa bb".toList 1).length ≤ (1 : Int).toNat :=
  (search_limit_truncation demoLog idxAB "aa bb".toList 1).1 (by decide)

/-! ## Sorting and ranking lemmas (claim C2) -/

theorem insertDesc_perm (x : Nat × ℚ) (l : List (Nat × ℚ)) :
    List.Perm (insertDesc x l) (x :: l) := by
  induction l with
  | nil => rfl
  | cons y rest ih =>
    unfold insertDesc
    by_cases h : y.2 ≤ x.2
    · rw [if_pos h]
    · rw [if_neg h]
      exact (ih.cons y).trans (List.Perm.swap x y rest)

theorem sortDesc_perm (l : List (Nat × ℚ)) : List.Perm (sortDesc l) l := by
  induction l with
  | nil => rfl
  | cons x rest ih =>
    exact (insertDesc_perm x (sortDesc rest)).trans (ih.cons x)

theorem insertDesc_pairwise (x : Nat × ℚ) (l : List (Nat × ℚ))
    (h : l.Pairwise (fun a b => b.2 ≤ a.2)) :
    (insertDesc x l).Pairwise (fun a b => b.2 ≤ a.2) := by
  induction l with
  | nil => exact List.pairwise_singleton _ x
  | cons y rest ih =>
    rw [List.pairwise_cons] at h
    obtain ⟨hy, hrest⟩ := h
    unfold insertDesc
    by_cases hc : y.2 ≤ x.2
    · rw [if_pos hc]
      refine List.Pairwise.cons ?_ (List.Pairwise.cons hy hrest)
      intro z hz
      rcases List.mem_cons.mp hz with rfl | hz
      · exact hc
      · exact le_trans (hy z hz) hc
    · rw [if_neg hc]
      refine List.Pairwise.cons ?_ (ih hrest)
      intro z hz
      rcases List.mem_cons.mp ((insertDesc_perm x rest).mem_iff.mp hz) with rfl | hz'
      · exact le_of_lt (lt_of_not_le hc)
      · exact hy z hz'


theorem insertDesc_mem_cases (z x : Nat × ℚ) (l : List (Nat × ℚ)) (h : z ∈ insertDesc x l) :
    z = x ∨ z ∈ l :=
  List.mem_cons.mp ((insertDesc_perm x l).mem_iff.mp h)

theorem sortDesc_pairwise (l : List (Nat × ℚ)) :
    (sortDesc l).Pairwise (fun a b => b.2 ≤ a.2) := by
  induction l with
  | nil => exact List.Pairwise.nil
  | cons x rest ih => exact insertDesc_pairwise x (sortDesc rest) ih

theorem insertDesc_filter_score (x : Nat × ℚ) (l : List (Nat × ℚ)) (s : ℚ) :
    (insertDesc x l).filter (fun p => decide (p.2 = s)) =
      if x.2 = s then x :: l.filter (fun p => decide (p.2 = s))
      else l.filter (fun p => decide (p.2 = s)) := by
  induction l with
  | nil =>
    by_cases hx : x.2 = s
    · simp [insertDesc, List.filter, hx]
    · simp [insertDesc, List.filter, hx]
  | cons y rest ih =>
    unfold insertDesc
    by_cases hc : y.2 ≤ x.2
    · rw [if_pos hc]
      by_cases hx : x.2 = s
      · simp [List.filter_cons, hx]
      · simp [List.filter_cons, hx]
    · rw [if_neg hc]
      have hxy : x.2 < y.2 := lt_of_not_le hc
      by_cases hx : x.2 = s
      · have hy : ¬ (y.2 = s) := by rw [← hx]; exact fun hh => absurd hh.symm (ne_of_lt hxy)
        rw [if_pos hx, List.filter_cons, List.filter_cons]
        simp [hy, ih, hx]
      · rw [if_neg hx, List.filter_cons, List.filter_cons]
        by_cases hy : y.2 = s
        · simp [hy, ih, hx]
        · simp [hy, ih, hx]

theorem sortDesc_filter_score (l : List (Nat × ℚ)) (s : ℚ) :
    (sortDesc l).filter (fun p => decide (p.2 = s)) =
      l.filter (fun p => decide (p.2 = s)) := by
  induction l with
  | nil => rfl
  | cons x rest ih =>
    rw [sortDesc, insertDesc_filter_score, List.filter_cons]
    by_cases hx : x.2 = s
    · simp [hx, ih]
    · simp [hx, ih]

theorem bump_keys (fs : List (Nat × ℚ)) (d : Nat) (v : ℚ) (d' : Nat) :
    d' ∈ (bump fs d v).map Prod.fst ↔ d' ∈ fs.map Prod.fst ∨ d' = d := by
  induction fs with
  | nil => simp [bump]
  | cons y rest ih =>
    unfold bump
    by_cases hc : y.1 = d
    · rw [if_pos hc]
      subst hc
      simp only [List.map_cons, List.mem_cons]
      tauto
    · rw [if_neg hc]
      simp only [List.map_cons, List.mem_cons, ih]
      tauto

theorem bump_keys_nodup (fs : List (Nat × ℚ)) (d : Nat) (v : ℚ)
    (h : (fs.map Prod.fst).Nodup) : ((bump fs d v).map Prod.fst).Nodup := by
  induction fs with
  | nil => simp [bump]
  | cons y rest ih =>
    rw [List.map_cons, List.nodup_cons] at h
    obtain ⟨hy, hrest⟩ := h
    unfold bump
    by_cases hc : y.1 = d
    · rw [if_pos hc]
      simp only [List.map_cons]
      exact List.Nodup.cons hy hrest
    · rw [if_neg hc]
      simp only [List.map_cons, List.nodup_cons]
      refine ⟨fun hmem => ?_, ih hrest⟩
      rcases (bump_keys rest d v y.1).mp hmem with hh | hh
      · exact hy hh
      · exact hc hh

theorem foldl_bump_keys (f : Loc → ℚ) (locs : List Loc) :
    ∀ (fs : List (Nat × ℚ)) (d' : Nat),
      d' ∈ ((locs.foldl (fun a loc => bump a loc.document (f loc)) fs).map Prod.fst) ↔
        d' ∈ fs.map Prod.fst ∨ ∃ loc ∈ locs, loc.document = d' := by
  induction locs with
  | nil => intro fs d'; simp
  | cons l rest ih =>
    intro fs d'
    rw [List.foldl_cons, ih, bump_keys]
    simp only [List.mem_cons]
    constructor
    · rintro ((h | rfl) | ⟨loc, hloc, rfl⟩)
      · exact Or.inl h
      · exact Or.inr ⟨l, Or.inl rfl, rfl⟩
      · exact Or.inr ⟨loc, Or.inr hloc, rfl⟩
    · rintro (h | ⟨loc, (rfl | hloc), rfl⟩)
      · exact Or.inl (Or.inl h)
      · exact Or.inl (Or.inr rfl)
      · exact Or.inr ⟨loc, hloc, rfl⟩

theorem foldl_bump_keys_nodup (f : Loc → ℚ) (locs : List Loc) :
    ∀ (fs : List (Nat × ℚ)), (fs.map Prod.fst).Nodup →
      ((locs.foldl (fun a loc => bump a loc.document (f loc)) fs).map Prod.fst).Nodup := by
  induction locs with
  | nil => intro fs h; exact h
  | cons l rest ih =>
    intro fs h
    exact ih (bump fs l.document (f l)) (bump_keys_nodup fs l.document (f l) h)

theorem scoreStep_keys (log : ℚ → ℚ) (idx : Index) (fs : List (Nat × ℚ))
    (w : List Char) (d' : Nat) :
    d' ∈ (scoreStep log idx fs w).map Prod.fst ↔
      d' ∈ fs.map Prod.fst ∨ ∃ loc ∈ lookupP idx w, loc.document = d' := by
  unfold scoreStep
  by_cases h : lookupP idx w = []
  · rw [if_pos h, h]
    simp
  · rw [if_neg h]
    exact foldl_bump_keys _ (lookupP idx w) fs d'

theorem scoreStep_keys_nodup (log : ℚ → ℚ) (idx : Index) (fs : List (Nat × ℚ))
    (w : List Char) (h : (fs.map Prod.fst).Nodup) :
    ((scoreStep log idx fs w).map Prod.fst).Nodup := by
  unfold scoreStep
  by_cases hl : lookupP idx w = []
  · rw [if_pos hl]
    exact h
  · rw [if_neg hl]
    exact foldl_bump_keys_nodup _ (lookupP idx w) fs h

theorem foldl_scoreStep_keys (log : ℚ → ℚ) (idx : Index) (toks : List (List Char)) :
    ∀ (fs : List (Nat × ℚ)) (d' : Nat),
      d' ∈ ((toks.foldl (scoreStep log idx) fs).map Prod.fst) ↔
        d' ∈ fs.map Prod.fst ∨ ∃ w ∈ toks, ∃ loc ∈ lookupP idx w, loc.document = d' := by
  induction toks with
  | nil => intro fs d'; simp
  | cons t rest ih =>
    intro fs d'
    rw [List.foldl_cons, ih, scoreStep_keys]
    simp only [List.mem_cons]
    constructor
    · rintro ((h | h) | ⟨w, hw, h⟩)
      · exact Or.inl h
      · exact Or.inr ⟨t, Or.inl rfl, h⟩
      · exact Or.inr ⟨w, Or.inr hw, h⟩
    · rintro (h | ⟨w, (rfl | hw), h⟩)
      · exact Or.inl (Or.inl h)
      · exact Or.inl (Or.inr h)
      · exact Or.inr ⟨w, hw, h⟩

theorem fileScores_keys (log : ℚ → ℚ) (idx : Index) (toks : List (List Char)) (d' : Nat) :
    d' ∈ (fileScores log idx toks).map Prod.fst ↔
      ∃ w ∈ toks, ∃ loc ∈ lookupP idx w, loc.document = d' := by
  rw [fileScores, foldl_scoreStep_keys]
  simp

theorem fileScores_keys_nodup (log : ℚ → ℚ) (idx : Index) (toks : List (List Char)) :
    ((fileScores log idx toks).map Prod.fst).Nodup := by
  rw [fileScores]
  have h : ∀ (ts : List (List Char)) (fs : List (Nat × ℚ)), (fs.map Prod.fst).Nodup →
      ((ts.foldl (scoreStep log idx) fs).map Prod.fst).Nodup := by
    intro ts
    induction ts with
    | nil => intro fs hfs; exact hfs
    | cons t rest ih =>
      intro fs hfs
      exact ih (scoreStep log idx fs t) (scoreStep_keys_nodup log idx fs t hfs)
  exact h toks [] (by simp)

/-- Claim C2 (amended): before truncation, search produces exactly one
result per document having at least one posting for some query token —
*including* documents whose accumulated score is `0` (a term occurring
in every document has `idf = log 1 = 0`) — sorted descending by score;
results with equal scores keep the order in which the score accumulator
first reached their document (query-token order, then postings order),
which need not be ingestion order. -/
theorem search_ranking_characterization (log : ℚ → ℚ) (idx : Index) (q : List Char) :
    (rankedResults log idx q).Pairwise (fun a b => b.2 ≤ a.2) ∧
    ((rankedResults log idx q).map Prod.fst).Nodup ∧
    (∀ d, d ∈ (rankedResults log idx q).map Prod.fst ↔
      ∃ w ∈ tokens q, ∃ loc ∈ lookupP idx w, loc.document = d) ∧
    (∀ s : ℚ, (rankedResults log idx q).filter (fun p => decide (p.2 = s)) =
      (fileScores log idx (tokens q)).filter (fun p => decide (p.2 = s))) := by
  have hperm : List.Perm ((rankedResults log idx q).map Prod.fst)
      ((fileScores log idx (tokens q)).map Prod.fst) :=
    (sortDesc_perm (fileScores log idx (tokens q))).map Prod.fst
  refine ⟨sortDesc_pairwise _, ?_, fun d => ?_, fun s => sortDesc_filter_score _ s⟩
  · exact hperm.nodup_iff.mpr (fileScores_keys_nodup log idx (tokens q))
  · rw [hperm.mem_iff, fileScores_keys]

/-- Counterexample to claim C2 as stated, with the logarithm
instantiated at `demoLog` (which matches `ln` at the two consulted
points, `log 1 = 0` and `log 2 > 0`):
* on `idxCD` (`"cat"` / `"cat dog"`), query `"dog cat"`: document `0`
  is returned with score `0` — the result set is not "exactly the
  documents with score > 0";
* on `idxAB` (`"bb"` / `"aa"`), query `"aa bb"`: both documents score
  `100`, yet the results list them as ids `[1, 0]` — equal scores in
  *reverse* ingestion order. -/
theorem search_ranking_counterexample :
    rankedResults demoLog idxCD "dog cat".toList = [(1, 100), (0, 0)] ∧
    rankedResults demoLog idxAB "aa bb".toList = [(1, 100), (0, 100)] := by
  constructor
  · have h : idxCD = { documents := [{ id := 0, name := ['c'], filename := "c.txt".toList, max_tf := 1 },
                                     { id := 1, name := ['d'], filename := "d.txt".toList, max_tf := 1 }],
                       terms := [(['c','a','t'], [⟨0, [0]⟩, ⟨1, [0]⟩]), (['d','o','g'], [⟨1, [1]⟩])] } := by
      decide
    have htok : tokens "dog cat".toList = [['d','o','g'], ['c','a','t']] := by decide
    rw [rankedResults, htok, h]
    simp +decide [fileScores, scoreStep, lookupP, assocFind, idfVal, tfOf, maxTfOf, bump,
      insertDesc, sortDesc, demoLog, List.foldl]
    norm_num
  · have h : idxAB = { documents := [{ id := 0, name := ['a'], filename := "a.txt".toList, max_tf := 1 },
                                     { id := 1, name := ['b'], filename := "b.txt".toList, max_tf := 1 }],
                       terms := [(['b','b'], [⟨0, [0]⟩]), (['a','a'], [⟨1, [0]⟩])] } := by
      decide
    have htok : tokens "aa bb".toList = [['a','a'], ['b','b']] := by decide
    rw [rankedResults, htok, h]
    simp +decide [fileScores, scoreStep, lookupP, assocFind, idfVal, tfOf, maxTfOf, bump,
      insertDesc, sortDesc, demoLog, List.foldl]
    norm_num

/-! ## Score accumulation lemmas (claims C10 and C9) -/

/-- Read a document's accumulated score out of the `file_scores` dict
(`0` for a missing key, the `defaultdict(float)` default). -/
def getScore (fs : List (Nat × ℚ)) (d : Nat) : ℚ :=
  match assocFind fs d with
  | some v => v
  | none => 0

/-- The total amount a single query token `w` adds to document `d`'s
score in one pass of the loop body (lines 72–78): the sum of
`tf * idf` over `w`'s postings owned by `d`. -/
def contribution (log : ℚ → ℚ) (idx : Index) (w : List Char) (d : Nat) : ℚ :=
  (((lookupP idx w).filter (fun loc => decide (loc.document = d))).map
    (fun loc => tfOf loc.offsets.length (maxTfOf idx loc.document) * idfVal log idx w)).sum

theorem getScore_bump (fs : List (Nat × ℚ)) (d' : Nat) (v : ℚ) (d : Nat) :
    getScore (bump fs d' v) d = getScore fs d + if d' = d then v else 0 := by
  induction fs with
  | nil =>
    by_cases h : d' = d
    · simp [bump, getScore, assocFind, h]
    · simp [bump, getScore, assocFind, h]
  | cons y rest ih =>
    obtain ⟨a, s⟩ := y
    by_cases hc : a = d'
    · by_cases hd : a = d
      · have hdd : d' = d := hc.symm.trans hd
        simp [bump, getScore, assocFind, hc, hd, hdd]
      · have hdd : ¬ (d' = d) := fun hh => hd (hc.trans hh)
        simp [bump, getScore, assocFind, hc, hd, hdd]
    · by_cases hd : a = d
      · subst hd
        have hdd : ¬ (d' = a) := fun hh => hc hh.symm
        simp [bump, getScore, assocFind, hc, hdd]
      · simp only [bump, hc, if_false, getScore, assocFind, hd]
        exact ih

theorem getScore_foldl_bump (f : Loc → ℚ) (locs : List Loc) :
    ∀ (fs : List (Nat × ℚ)) (d : Nat),
      getScore (locs.foldl (fun a loc => bump a loc.document (f loc)) fs) d =
        getScore fs d + ((locs.filter (fun loc => decide (loc.document = d))).map f).sum := by
  induction locs with
  | nil => intro fs d; simp
  | cons l rest ih =>
    intro fs d
    rw [List.foldl_cons, ih, getScore_bump, List.filter_cons]
    simp only [decide_eq_true_eq]
    by_cases h : l.document = d
    · rw [if_pos h, if_pos h, List.map_cons, List.sum_cons]
      ring
    · rw [if_neg h, if_neg h]
      ring

theorem getScore_scoreStep (log : ℚ → ℚ) (idx : Index) (fs : List (Nat × ℚ))
    (w : List Char) (d : Nat) :
    getScore (scoreStep log idx fs w) d = getScore fs d + contribution log idx w d := by
  unfold scoreStep contribution
  by_cases h : lookupP idx w = []
  · rw [if_pos h, h]
    simp
  · rw [if_neg h]
    exact getScore_foldl_bump _ (lookupP idx w) fs d

theorem getScore_fileScores (log : ℚ → ℚ) (idx : Index) (toks : List (List Char)) (d : Nat) :
    getScore (fileScores log idx toks) d =
      (toks.map (fun w => contribution log idx w d)).sum := by
  have haux : ∀ (ts : List (List Char)) (fs : List (Nat × ℚ)),
      getScore (ts.foldl (scoreStep log idx) fs) d =
        getScore fs d + (ts.map (fun w => contribution log idx w d)).sum := by
    intro ts
    induction ts with
    | nil => intro fs; simp
    | cons t rest ih =>
      intro fs
      rw [List.foldl_cons, ih, getScore_scoreStep, List.map_cons, List.sum_cons]
      ring
  rw [fileScores, haux]
  simp [getScore, assocFind]

theorem sum_map_split_count (l : List (List Char)) (f : List Char → ℚ) (t : List Char) :
    (l.map f).sum =
      ((l.filter (fun w => decide (w ≠ t))).map f).sum + (l.count t : ℚ) * f t := by
  induction l with
  | nil => simp
  | cons w rest ih =>
    by_cases h : w = t
    · subst h
      rw [List.map_cons, List.sum_cons, List.filter_cons, List.count_cons_self, ih]
      simp only [decide_eq_true_eq, ne_eq, eq_self_iff_true, not_true, if_false]
      push_cast
      ring
    · rw [List.map_cons, List.sum_cons, List.filter_cons, ih]
      simp only [decide_eq_true_eq, ne_eq]
      rw [if_pos h, List.map_cons, List.sum_cons]
      have hcount : (w :: rest).count t = rest.count t :=
        List.count_cons_of_ne (fun hh => h hh.symm) rest
      rw [hcount]
      ring

/-- Claim C10: duplicate query terms multiply their weight.  If a term
`t` is yielded `k` times by tokenizing the query, the accumulated score
of any document `d` equals the score obtained from the other tokens
plus `k` times `t`'s per-pass contribution (the sum of
`tf(t,d) * idf(t)` over `t`'s postings owned by `d`). -/
theorem duplicate_query_terms_weight (log : ℚ → ℚ) (idx : Index) (q t : List Char) (d : Nat) :
    getScore (fileScores log idx (tokens q)) d =
      getScore (fileScores log idx ((tokens q).filter (fun w => decide (w ≠ t)))) d +
      ((tokens q).count t : ℚ) * contribution log idx t d := by
  rw [getScore_fileScores, getScore_fileScores, sum_map_split_count (tokens q) _ t]

theorem searchS_foldl (log : ℚ → ℚ) (idx : Index) (toks : List (List Char)) :
    ∀ fs : List (Nat × ℚ),
      toks.foldl
        (fun (p : List (Nat × ℚ) × Index) w =>
          let l := lookupS p.2 w
          if l.1 = [] then (p.1, l.2)
          else
            let i := idfS log l.2 w
            (l.1.foldl
              (fun fs loc =>
                bump fs loc.document
                  (tfOf loc.offsets.length (maxTfOf i.2 loc.document) * (i.1.getD 0)))
              p.1,
             i.2))
        (fs, idx) =
      (toks.foldl (scoreStep log idx) fs, idx) := by
  induction toks with
  | nil => intro fs; rfl
  | cons t rest ih =>
    intro fs
    rw [List.foldl_cons, List.foldl_cons]
    have hstep :
        (let l := lookupS idx t
         if l.1 = [] then (fs, l.2)
         else
           let i := idfS log l.2 t
           (l.1.foldl
             (fun fs loc =>
               bump fs loc.document
                 (tfOf loc.offsets.length (maxTfOf i.2 loc.document) * (i.1.getD 0)))
             fs,
            i.2)) = (scoreStep log idx fs t, idx) := by
      by_cases h : lookupP idx t = []
      · simp [lookupS, scoreStep, idfS, h]
      · simp [lookupS, scoreStep, idfS, h]
    rw [hstep]
    exact ih (scoreStep log idx fs t)

theorem searchS_eq (log : ℚ → ℚ) (idx : Index) (q : List Char) (limit : Int) :
    searchS log idx q limit = (search log idx q limit, idx) := by
  unfold searchS
  rw [searchS_foldl log idx (tokens q) []]
  rfl

/-- Claim C9: search never mutates index state.  The state-threading
embedding of `Index.search` (which routes every `self` access —
`self.lookup` in the query loop, `self.idf` and its inner
`self.lookup`, `self.documents` — through the returned state) gives
back exactly the index it was called on, with the result agreeing with
the pure scoring function.  This holds because `Index.lookup` uses
`dict.get`, which never inserts a key into the `defaultdict`. -/
theorem search_preserves_state (log : ℚ → ℚ) (idx : Index) (q : List Char) (limit : Int) :
    (searchS log idx q limit).2 = idx ∧
    (searchS log idx q limit).1 = search log idx q limit := by
  rw [searchS_eq]
  exact ⟨rfl, rfl⟩

/-! ## Term-frequency range lemmas (claim C6) -/

theorem addOffset_nonempty (m : List (List Char × List Nat)) (w : List Char) (i : Nat)
    (h : ∀ p ∈ m, p.2 ≠ []) : ∀ p ∈ addOffset m w i, p.2 ≠ [] := by
  induction m with
  | nil =>
    intro p hp
    simp only [addOffset, List.mem_singleton] at hp
    subst hp
    simp
  | cons y rest ih =>
    obtain ⟨w', offs⟩ := y
    intro p hp
    unfold addOffset at hp
    by_cases hc : w' = w
    · rw [if_pos hc] at hp
      rcases List.mem_cons.mp hp with rfl | hp'
      · simp
      · exact h p (List.mem_cons_of_mem _ hp')
    · rw [if_neg hc] at hp
      rcases List.mem_cons.mp hp with rfl | hp'
      · exact h _ (List.mem_cons_self _ _)
      · exact ih (fun q hq => h q (List.mem_cons_of_mem _ hq)) p hp'

theorem buildLocs_nonempty (toks : List (List Char)) :
    ∀ p ∈ buildLocs toks, p.2 ≠ [] := by
  rw [buildLocs]
  have haux : ∀ (l : List (Nat × List Char)) (m : List (List Char × List Nat)),
      (∀ p ∈ m, p.2 ≠ []) →
      ∀ p ∈ l.foldl (fun m p => addOffset m p.2 p.1) m, p.2 ≠ [] := by
    intro l
    induction l with
    | nil => intro m hm; exact hm
    | cons x rest ih =>
      intro m hm
      exact ih (addOffset m x.2 x.1) (addOffset_nonempty m x.2 x.1 hm)
  exact haux (toks.enum) [] (by simp)

theorem foldl_max_init_le (l : List Nat) : ∀ a : Nat, a ≤ l.foldl max a := by
  induction l with
  | nil => intro a; exact le_rfl
  | cons b rest ih =>
    intro a
    exact le_trans (Nat.le_max_left a b) (ih (max a b))

theorem foldl_max_mem_le (l : List Nat) : ∀ (a x : Nat), x ∈ l → x ≤ l.foldl max a := by
  induction l with
  | nil => intro a x hx; simp at hx
  | cons b rest ih =>
    intro a x hx
    rcases List.mem_cons.mp hx with rfl | hx'
    · exact le_trans (Nat.le_max_right a x) (foldl_max_init_le rest (max a x))
    · exact ih (max a b) x hx'

theorem pyMax_le (l : List Nat) (m : Nat) (h : pyMax l = some m) :
    ∀ x ∈ l, x ≤ m := by
  match l, h with
  | x :: rest, h =>
    simp only [pyMax, Option.some.injEq] at h
    subst h
    intro y hy
    rcases List.mem_cons.mp hy with rfl | hy'
    · exact foldl_max_init_le rest y
    · exact foldl_max_mem_le rest x y hy'

theorem foldl_max_mem (l : List Nat) : ∀ a : Nat, l.foldl max a ∈ a :: l := by
  induction l with
  | nil => intro a; simp
  | cons b rest ih =>
    intro a
    rw [List.foldl_cons]
    have h := ih (max a b)
    rcases List.mem_cons.mp h with h1 | h1
    · rw [h1]
      rcases max_choice a b with h2 | h2 <;> rw [h2]
      · exact List.mem_cons_self a _
      · exact List.mem_cons_of_mem a (List.mem_cons_self b rest)
    · exact List.mem_cons_of_mem a (List.mem_cons_of_mem b h1)

theorem pyMax_mem (l : List Nat) (m : Nat) (h : pyMax l = some m) : m ∈ l := by
  match l, h with
  | x :: rest, h =>
    simp only [pyMax, Option.some.injEq] at h
    subst h
    exact foldl_max_mem rest x

/-- Claim C6: for a document text yielding at least one token, every
term's tf value `100 * occurrences / max_tf` (with `max_tf` the
`max(...)` of line 52 over the `locs_in_file` table of lines 49–51, and
the tf expression of line 77) lies in `(0, 100]`, and equals `100`
exactly when the term's occurrence count equals `max_tf`. -/
theorem tf_normalization_range (text : List Char) (_htok : tokens text ≠ [])
    (m : Nat) (hm : pyMax ((buildLocs (tokens text)).map (fun p => p.2.length)) = some m)
    (p : List Char × List Nat) (hp : p ∈ buildLocs (tokens text)) :
    0 < tfOf p.2.length m ∧ tfOf p.2.length m ≤ 100 ∧
      (tfOf p.2.length m = 100 ↔ p.2.length = m) := by
  have hocc1 : 1 ≤ p.2.length :=
    List.length_pos.mpr (buildLocs_nonempty (tokens text) p hp)
  have hle : p.2.length ≤ m :=
    pyMax_le _ m hm p.2.length (List.mem_map.mpr ⟨p, hp, rfl⟩)
  have hm1 : 1 ≤ m := le_trans hocc1 hle
  have hmq : (0 : ℚ) < (m : ℚ) := by exact_mod_cast hm1
  have hoccq : (0 : ℚ) < (p.2.length : ℚ) := by exact_mod_cast hocc1
  refine ⟨?_, ?_, ?_⟩
  · exact div_pos (mul_pos (by norm_num) hoccq) hmq
  · rw [tfOf, div_le_iff₀ hmq]
    have hq : (p.2.length : ℚ) ≤ (m : ℚ) := by exact_mod_cast hle
    nlinarith
  · rw [tfOf, div_eq_iff (ne_of_gt hmq)]
    constructor
    · intro h
      have h2 : (100 : ℚ) * p.2.length = 100 * m := by linarith
      have h3 : (p.2.length : ℚ) = (m : ℚ) :=
        mul_left_cancel₀ (by norm_num : (100 : ℚ) ≠ 0) h2
      exact_mod_cast h3
    · intro h
      rw [h]

/-- Witness for C6 on the text `"aa bb aa"`: the term `aa` occurs
twice, `max_tf = 2`. -/
theorem tf_normalization_range_witness :
    0 < tfOf 2 2 ∧ tfOf 2 2 ≤ 100 ∧ (tfOf 2 2 = 100 ↔ 2 = 2) :=
  tf_normalization_range "aa bb aa".toList (by decide) 2 (by decide)
    ("aa".toList, [0, 2]) (by decide)

/-! ## Persistence (claims C1 and C7)

`Index.save` (lines 84–106) writes `documents.txt`, the binary postings
blob `index.dat` with its in-memory `directory`, and `directory.txt`.
The loop structure, the `word.encode('utf-8') + b"\n"` prefix of each
term block, the `(word, bytes_written, len(bits))` directory entries and
the cumulative `bytes_written` counter are all in the source; the bytes
appended per posting are not (`bits.append(???)`, line 100, an undefined
expression), and no loader exists in the source at all. -/

/-- UTF-8 encoding of one character (`word.encode('utf-8')`, line 97),
bytes as naturals below 256. -/
def utf8Char (c : Char) : List Nat :=
  let n := c.toNat
  if n < 128 then [n]
  else if n < 2048 then [192 + n / 64, 128 + n % 64]
  else if n < 65536 then [224 + n / 4096, 128 + n / 64 % 64, 128 + n % 64]
  else [240 + n / 262144, 128 + n / 4096 % 64, 128 + n / 64 % 64, 128 + n % 64]

/-- UTF-8 encoding of a term. -/
def utf8Str (w : List Char) : List Nat :=
  (w.map utf8Char).flatten

/-- Modelled from the spec: a fixed-size binary integer (spec §4.4
"fixed-size binary integers (never text)").  The width is the spec's
implementation choice left open by the undefined expression at line 100;
this development uses 4-byte little-endian. -/
def encU32 (n : Nat) : List Nat :=
  [n % 256, n / 256 % 256, n / 65536 % 256, n / 16777216 % 256]

/-- Modelled from the spec: the per-posting bytes the source leaves
undefined (`bits.append(???)`, line 100).  Spec §4.4: "Each posting
encodes `(document id, offset count, offsets…)`". -/
def encodePosting (loc : Loc) : List Nat :=
  encU32 loc.document ++ encU32 loc.offsets.length ++ (loc.offsets.map encU32).flatten

/-- One term's block of the postings blob (lines 97–100): UTF-8 term
bytes, the `b"\n"` delimiter, then that term's postings. -/
def termBlock (w : List Char) (locs : List Loc) : List Nat :=
  utf8Str w ++ [10] ++ (locs.map encodePosting).flatten

/-- The `index.dat` writing loop of lines 95–102: returns the blob bytes
and the `directory` list of `(word, bytes_written, len(bits))` entries,
with `written` the running `bytes_written` counter. -/
def saveAux : List (List Char × List Loc) → Nat → List Nat × List (List Char × Nat × Nat)
  | [], _ => ([], [])
  | (w, locs) :: rest, written =>
    let bits := termBlock w locs
    let r := saveAux rest (written + bits.length)
    (bits ++ r.1, (w, written, bits.length) :: r.2)

/-- The `documents.txt` content written by lines 89–91: the
concatenation of `"{},{},{}".format(doc.name, doc.filename, doc.max_tf)`
per document — note the format string contains no newline. -/
def documentsFile (idx : Index) : List Char :=
  (idx.documents.map (fun d =>
    d.name ++ [','] ++ d.filename ++ [','] ++ (Nat.repr d.max_tf).toList)).flatten

/-- The `directory.txt` content written by lines 104–106: the
concatenation of `"{},{},{}".format(word, offset, nbytes)` per directory
entry — again with no newline in the format string. -/
def directoryFile (idx : Index) : List Char :=
  ((saveAux idx.terms 0).2.map (fun e =>
    e.1 ++ [','] ++ (Nat.repr e.2.1).toList ++ [','] ++ (Nat.repr e.2.2).toList)).flatten

/-- Sum of the block lengths of a prefix of the term list: the
`bytes_written` value when the writer reaches the end of that prefix. -/
def blockLenSum (l : List (List Char × List Loc)) : Nat :=
  (l.map (fun p => (termBlock p.1 p.2).length)).sum

/-- Modelled from the spec: the loader side of §8's round-trip property
(the source has no loader).  Read one 4-byte little-endian integer. -/
def decU32 : List Nat → Option (Nat × List Nat)
  | b0 :: b1 :: b2 :: b3 :: rest => some (b0 + 256 * b1 + 65536 * b2 + 16777216 * b3, rest)
  | _ => none

/-- Modelled from the spec: read `k` offsets. -/
def decOffs : Nat → List Nat → Option (List Nat × List Nat)
  | 0, bs => some ([], bs)
  | k + 1, bs =>
    match decU32 bs with
    | some p =>
      match decOffs k p.2 with
      | some q => some (p.1 :: q.1, q.2)
      | none => none
    | none => none

/-- Modelled from the spec: read one posting
`(document id, offset count, offsets…)`. -/
def decPosting (bs : List Nat) : Option ((Nat × List Nat) × List Nat) :=
  match decU32 bs with
  | some d =>
    match decU32 d.2 with
    | some k =>
      match decOffs k.1 k.2 with
      | some o => some ((d.1, o.1), o.2)
      | none => none
    | none => none
  | none => none

/-- Modelled from the spec: read postings until the term's byte range is
exhausted (the range end is known from the directory entry; `fuel`
bounds the recursion and is instantiated with the byte count). -/
def decPostingsF : Nat → List Nat → Option (List (Nat × List Nat))
  | 0, bs => if bs = [] then some [] else none
  | fuel + 1, bs =>
    if bs = [] then some []
    else
      match decPosting bs with
      | some p =>
        match decPostingsF fuel p.2 with
        | some ps => some (p.1 :: ps)
        | none => none
      | none => none

/-- Modelled from the spec: split a term block at the `b"\n"` delimiter
that `save` writes after the UTF-8 term bytes (line 97); `none` models
the `CorruptIndex` condition. -/
def splitAtNl : List Nat → Option (List Nat × List Nat)
  | [] => none
  | b :: rest =>
    if b = 10 then some ([], rest)
    else (splitAtNl rest).map (fun p => (b :: p.1, p.2))

/-- Modelled from the spec: decode one term's byte range out of the
blob: the UTF-8 term bytes before the delimiter and the decoded
`(document id, offsets)` pairs after it. -/
def decodeBlock (block : List Nat) : Option (List Nat × List (Nat × List Nat)) :=
  match splitAtNl block with
  | some p =>
    match decPostingsF p.2.length p.2 with
    | some ps => some (p.1, ps)
    | none => none
  | none => none

theorem utf8Char_no_newline (c : Char) (h : c.toNat ≠ 10) : 10 ∉ utf8Char c := by
  intro hmem
  simp only [utf8Char] at hmem
  split_ifs at hmem with h1 h2 h3
  · simp only [List.mem_singleton] at hmem
    exact h hmem.symm
  · simp only [List.mem_cons, List.not_mem_nil, or_false] at hmem
    rcases hmem with hh | hh <;> omega
  · simp only [List.mem_cons, List.not_mem_nil, or_false] at hmem
    rcases hmem with hh | hh | hh <;> omega
  · simp only [List.mem_cons, List.not_mem_nil, or_false] at hmem
    rcases hmem with hh | hh | hh | hh <;> omega

theorem utf8Str_no_newline (w : List Char) (h : ∀ c ∈ w, c.toNat ≠ 10) :
    10 ∉ utf8Str w := by
  induction w with
  | nil => simp [utf8Str]
  | cons c rest ih =>
    simp only [utf8Str, List.map_cons, List.flatten_cons, List.mem_append]
    rintro (hh | hh)
    · exact utf8Char_no_newline c (h c (List.mem_cons_self c rest)) hh
    · exact ih (fun c' hc' => h c' (List.mem_cons_of_mem c hc')) hh

theorem splitAtNl_append (tb rest : List Nat) (h : 10 ∉ tb) :
    splitAtNl (tb ++ 10 :: rest) = some (tb, rest) := by
  induction tb with
  | nil => simp [splitAtNl]
  | cons b tb' ih =>
    have hb : ¬ (b = 10) := fun hh => h (hh ▸ List.mem_cons_self b tb')
    rw [List.cons_append, splitAtNl, if_neg hb,
      ih (fun hh => h (List.mem_cons_of_mem b hh))]
    rfl

theorem decU32_encU32 (n : Nat) (h : n < 4294967296) (rest : List Nat) :
    decU32 (encU32 n ++ rest) = some (n, rest) := by
  have harith : n % 256 + 256 * (n / 256 % 256) + 65536 * (n / 65536 % 256) +
      16777216 * (n / 16777216 % 256) = n := by omega
  simp only [encU32, List.cons_append, List.nil_append, decU32, harith]

theorem decOffs_enc (offs : List Nat) (h : ∀ v ∈ offs, v < 4294967296) :
    ∀ rest, decOffs offs.length ((offs.map encU32).flatten ++ rest) = some (offs, rest) := by
  induction offs with
  | nil => intro rest; simp [decOffs]
  | cons v vs ih =>
    intro rest
    rw [List.map_cons, List.flatten_cons, List.length_cons, List.append_assoc]
    simp only [decOffs, decU32_encU32 v (h v (List.mem_cons_self v vs)),
      ih (fun x hx => h x (List.mem_cons_of_mem v hx)) rest]

theorem decPosting_enc (loc : Loc) (hd : loc.document < 4294967296)
    (hk : loc.offsets.length < 4294967296) (ho : ∀ v ∈ loc.offsets, v < 4294967296)
    (rest : List Nat) :
    decPosting (encodePosting loc ++ rest) = some ((loc.document, loc.offsets), rest) := by
  rw [encodePosting, List.append_assoc, List.append_assoc]
  simp only [decPosting, decU32_encU32 loc.document hd,
    decU32_encU32 loc.offsets.length hk, decOffs_enc loc.offsets ho rest]

theorem encodePosting_ne_nil (loc : Loc) : encodePosting loc ≠ [] := by
  simp [encodePosting, encU32]

theorem length_flatten_encodePosting (locs : List Loc) :
    locs.length ≤ ((locs.map encodePosting).flatten).length := by
  induction locs with
  | nil => simp
  | cons l ls ih =>
    rw [List.map_cons, List.flatten_cons, List.length_cons, List.length_append]
    have h1 : 1 ≤ (encodePosting l).length := by
      simp [encodePosting, encU32]
    omega

theorem decPostingsF_enc (locs : List Loc)
    (hb : ∀ loc ∈ locs, loc.document < 4294967296 ∧ loc.offsets.length < 4294967296 ∧
      ∀ v ∈ loc.offsets, v < 4294967296) :
    ∀ fuel, locs.length ≤ fuel →
      decPostingsF fuel ((locs.map encodePosting).flatten) =
        some (locs.map (fun l => (l.document, l.offsets))) := by
  induction locs with
  | nil =>
    intro fuel hf
    match fuel with
    | 0 => simp [decPostingsF]
    | f + 1 => simp [decPostingsF]
  | cons l ls ih =>
    intro fuel hf
    match fuel with
    | 0 => simp at hf
    | f + 1 =>
      rw [List.map_cons, List.flatten_cons]
      have hne : encodePosting l ++ (ls.map encodePosting).flatten ≠ [] := by
        intro hh
        exact encodePosting_ne_nil l (List.append_eq_nil.mp hh).1
      obtain ⟨hd, hk, ho⟩ := hb l (List.mem_cons_self l ls)
      have hlen : ls.length ≤ f := by
        rw [List.length_cons] at hf
        omega
      rw [decPostingsF, if_neg hne]
      simp only [decPosting_enc l hd hk ho,
        ih (fun x hx => hb x (List.mem_cons_of_mem l hx)) f hlen, List.map_cons]

theorem decodeBlock_termBlock (w : List Char) (locs : List Loc)
    (hw : ∀ c ∈ w, c.toNat ≠ 10)
    (hb : ∀ loc ∈ locs, loc.document < 4294967296 ∧ loc.offsets.length < 4294967296 ∧
      ∀ v ∈ loc.offsets, v < 4294967296) :
    decodeBlock (termBlock w locs) =
      some (utf8Str w, locs.map (fun l => (l.document, l.offsets))) := by
  rw [termBlock, List.append_assoc, List.singleton_append, decodeBlock]
  simp only [splitAtNl_append (utf8Str w) _ (utf8Str_no_newline w hw),
    decPostingsF_enc locs hb _ (length_flatten_encodePosting locs)]

theorem saveAux_spec (pre : List (List Char × List Loc)) :
    ∀ (w : List Char) (locs : List Loc) (post : List (List Char × List Loc)) (written : Nat),
      (saveAux (pre ++ (w, locs) :: post) written).2.get? pre.length =
        some (w, written + blockLenSum pre, (termBlock w locs).length) ∧
      ((saveAux (pre ++ (w, locs) :: post) written).1.drop (blockLenSum pre)).take
        (termBlock w locs).length = termBlock w locs := by
  induction pre with
  | nil =>
    intro w locs post written
    constructor
    · simp [saveAux, blockLenSum]
    · simp only [List.nil_append, saveAux, blockLenSum, List.map_nil, List.sum_nil,
        List.drop_zero]
      exact List.take_left _ _
  | cons q pre' ih =>
    intro w locs post written
    obtain ⟨qw, qlocs⟩ := q
    have hq := ih w locs post (written + (termBlock qw qlocs).length)
    constructor
    · simp only [List.cons_append, saveAux, List.length_cons, List.get?_cons_succ,
        List.append_eq]
      rw [hq.1]
      simp [blockLenSum, Nat.add_assoc]
    · simp only [List.cons_append, saveAux, blockLenSum, List.map_cons, List.sum_cons,
        List.append_eq]
      rw [List.drop_append]
      exact hq.2

/-- Claim C1: round-trip of persistence.  For every term table whose
terms contain no newline character and whose postings fit the fixed
4-byte integers, the directory entry produced for the term at any
position carries its byte offset and length into the blob, the byte
range it denotes is exactly that term's block, and decoding that block
recovers the UTF-8 term bytes and exactly the original
`(document id, offsets)` pairs, in order.  The per-posting encoding and
the decoder are modelled from the spec (§4.4, §8): the source leaves
the posting bytes as the undefined expression `bits.append(???)` and
contains no loader. -/
theorem save_directory_roundtrip (terms : List (List Char × List Loc))
    (hnl : ∀ p ∈ terms, ∀ c ∈ p.1, c.toNat ≠ 10)
    (hbound : ∀ p ∈ terms, ∀ loc ∈ p.2, loc.document < 4294967296 ∧
      loc.offsets.length < 4294967296 ∧ ∀ v ∈ loc.offsets, v < 4294967296)
    (pre post : List (List Char × List Loc)) (w : List Char) (locs : List Loc)
    (hsplit : terms = pre ++ (w, locs) :: post) :
    ∃ off : Nat,
      (saveAux terms 0).2.get? pre.length = some (w, off, (termBlock w locs).length) ∧
      ((saveAux terms 0).1.drop off).take (termBlock w locs).length = termBlock w locs ∧
      decodeBlock (((saveAux terms 0).1.drop off).take (termBlock w locs).length) =
        some (utf8Str w, locs.map (fun l => (l.document, l.offsets))) := by
  subst hsplit
  have hmem : (w, locs) ∈ pre ++ (w, locs) :: post :=
    List.mem_append_right _ (List.mem_cons_self _ _)
  have hq := saveAux_spec pre w locs post 0
  refine ⟨blockLenSum pre, ?_, hq.2, ?_⟩
  · rw [hq.1, Nat.zero_add]
  · rw [hq.2]
    exact decodeBlock_termBlock w locs
      (fun c hc => hnl _ hmem c hc) (fun loc hloc => hbound _ hmem loc hloc)

/-- Witness for C1 on the two-document index `idxAB`: its first
directory entry (`bb`) round-trips. -/
theorem save_directory_roundtrip_witness :
    ∃ off : Nat,
      (saveAux idxAB.terms 0).2.get? 0 =
        some ("bb".toList, off, (termBlock "bb".toList [⟨0, [0]⟩]).length) ∧
      ((saveAux idxAB.terms 0).1.drop off).take (termBlock "bb".toList [⟨0, [0]⟩]).length =
        termBlock "bb".toList [⟨0, [0]⟩] ∧
      decodeBlock (((saveAux idxAB.terms 0).1.drop off).take
          (termBlock "bb".toList [⟨0, [0]⟩]).length) =
        some (utf8Str "bb".toList, [⟨0, [0]⟩].map (fun l : Loc => (l.document, l.offsets))) :=
  save_directory_roundtrip idxAB.terms (by decide) (by decide)
    [] [("aa".toList, [⟨1, [0]⟩])] "bb".toList [⟨0, [0]⟩] (by decide)

/-- Claim C7 is a code bug: the `"{},{},{}"` format strings of lines 91
and 106 contain no newline, so `documents.txt` and `directory.txt` are
written as a single concatenated line instead of one line per document
resp. per term.  Evaluated on the two-document index `idxAB`: the
document table is the separator-free string `a,a.txt,1b,b.txt,1`, and
neither file contains any newline, although each should have two lines. -/
theorem save_missing_newlines_bug :
    documentsFile idxAB = "a,a.txt,1b,b.txt,1".toList ∧
    (documentsFile idxAB).count '\n' = 0 ∧
    idxAB.documents.length = 2 ∧
    (directoryFile idxAB).count '\n' = 0 ∧
    (saveAux idxAB.terms 0).2.length = 2 := by
  decide

/-- Witness for C5 at a concrete text: the token `cat` (from `The CAT
sat-on mat!! ??`) is non-empty, lower-case, alphanumeric-bearing and
not a stop word. -/
theorem tokens_wellformed_witness :
    "cat".toList ≠ [] ∧ (∀ c ∈ "cat".toList, ¬ isUpperA c) ∧
    (∃ c ∈ "cat".toList, isAlnum c = true) ∧ "cat".toList ∉ STOP_WORDS :=
  tokens_wellformed "The CAT sat-on mat!! ??".toList "cat".toList (by decide)

/-- Witness for C2's amended theorem at a concrete index and query. -/
theorem search_ranking_characterization_witness :
    (rankedResults demoLog idxAB "aa bb".toList).Pairwise (fun a b => b.2 ≤ a.2) :=
  (search_ranking_characterization demoLog idxAB "aa bb".toList).1

/-- Counterexample to claim C4 as stated: on `idxAB` the query
`"aa bb"` has two ranked results, and `limit = -1` neither raises an
`InvalidArgument` error nor returns the top results — Python slicing
drops the last result and returns the first one. -/
theorem search_negative_limit_counterexample :
    search demoLog idxAB "aa bb".toList (-1) = [(1, 100)] ∧
    (rankedResults demoLog idxAB "aa bb".toList).length = 2 := by
  have h : idxAB = { documents := [{ id := 0, name := ['a'], filename := "a.txt".toList, max_tf := 1 },
                                   { id := 1, name := ['b'], filename := "b.txt".toList, max_tf := 1 }],
                     terms := [(['b','b'], [⟨0, [0]⟩]), (['a','a'], [⟨1, [0]⟩])] } := by
    decide
  have htok : tokens "aa bb".toList = [['a','a'], ['b','b']] := by decide
  constructor
  · rw [search, rankedResults, htok, h]
    simp +decide [fileScores, scoreStep, lookupP, assocFind, idfVal, tfOf, maxTfOf, bump,
      insertDesc, sortDesc, demoLog, List.foldl, pySlice]
    norm_num
  · rw [rankedResults, htok, h]
    simp +decide [fileScores, scoreStep, lookupP, assocFind, idfVal, tfOf, maxTfOf, bump,
      insertDesc, sortDesc, demoLog, List.foldl]

end Eensy
